import Mathlib

/-!
Verification of the trufflePy secret-scanning engine (`src/search/engine.py`,
`src/main/app.py`, `src/interface/cli.py`, `src/interface/colors.py`).

The development shallowly embeds the engine in Lean: Python strings become
`String`, Python lists become `List`, the findings dictionary becomes the
`Finding` structure, and the mutable engine state (`self.findings`,
`self.already_searched`) is threaded explicitly through `EngSt`.  External
collaborators (GitPython, the md5 digest, `datetime.strftime`, compiled
`re` patterns, the uncompyle6 decompiler) are abstracted as fields of
`Repo` / `EngineCfg` / `Blob` or as explicit function parameters; everything
with algorithmic content in the source is translated definition by
definition.  Python floating point `math.log` is idealised as exact real
arithmetic (`Real.logb`): the run-flagging *decision* of the source is
modelled by the executable natural-number test `entropy_gt`, and
`entropy_gt_iff` proves it equal to the real-valued Shannon-entropy
threshold comparison that the source's float comparison denotes.
-/

namespace TrufflePy

/-! ### Python string primitives

Helpers reproducing the exact semantics of the Python string operations the
engine uses, over `List Char` so that every computation is structural and
kernel-evaluable. -/

/-- The character class of Python's `str.split()` / `str.lstrip()`
(ASCII whitespace, as relevant to diff text). -/
def py_is_space (c : Char) : Bool :=
  [' ', '\t', '\n', '\r', '\x0b', '\x0c'].contains c

/-- Split a character list at every occurrence of `c`, keeping empty
segments: the semantics of Python's `s.split("\n")`. -/
def split_on_char (c : Char) : List Char → List (List Char)
  | [] => [[]]
  | ch :: t =>
    let r := split_on_char c t
    if ch = c then [] :: r
    else
      match r with
      | h :: t' => (ch :: h) :: t'
      | [] => [[ch]]

/-- Python `printable_diff.split("\n")`. -/
def py_split_newlines (s : String) : List String :=
  (split_on_char '\n' s.toList).map (fun l => String.mk l)

/-- Worker for `py_words`: `acc` holds the current word reversed. -/
def py_words_core : List Char → List Char → List String
  | [], acc => if acc.isEmpty then [] else [String.mk acc.reverse]
  | c :: t, acc =>
    if py_is_space c then
      if acc.isEmpty then py_words_core t []
      else String.mk acc.reverse :: py_words_core t []
    else py_words_core t (c :: acc)

/-- Python `line.split()`: split on whitespace runs, discarding empties. -/
def py_words (line : String) : List String :=
  py_words_core line.toList []

/-- Python `s.lstrip()`. -/
def py_lstrip (s : String) : String :=
  String.mk (s.toList.dropWhile py_is_space)

/-- Python `l[:-1]` on a string (drop the final character; identity on ""). -/
def py_dropLast (s : String) : String :=
  String.mk s.toList.dropLast

/-- Python `s.startswith(pre)`. -/
def py_startswith (s pre : String) : Bool :=
  pre.toList.isPrefixOf s.toList

/-- Python `s.endswith(suf)`. -/
def py_endswith (s suf : String) : Bool :=
  suf.toList.isSuffixOf s.toList

/-- Worker for `py_replace`, fuelled so the recursion is structural.  For a
non-empty pattern this is exactly Python's left-to-right, non-overlapping
`str.replace`; the engine only ever replaces non-empty matched substrings,
and for an empty pattern the model is the identity. -/
def py_replace_core : Nat → List Char → List Char → List Char → List Char
  | 0, rest, _, _ => rest
  | _ + 1, [], _, _ => []
  | fuel + 1, ch :: t, old, new =>
    if old.isPrefixOf (ch :: t) && !old.isEmpty then
      new ++ py_replace_core fuel ((ch :: t).drop old.length) old new
    else ch :: py_replace_core fuel t old new

/-- Python `s.replace(old, new)` (all non-overlapping occurrences). -/
def py_replace (s old new : String) : String :=
  String.mk (py_replace_core (s.toList.length + 1) s.toList old.toList new.toList)

/-- Python file-object line iteration (`for l in f`): each line keeps its
trailing newline; a final line without one is yielded as-is. -/
def py_file_lines_core : List Char → List Char → List String
  | [], acc => if acc.isEmpty then [] else [String.mk acc.reverse]
  | c :: t, acc =>
    if c = '\n' then String.mk (c :: acc).reverse :: py_file_lines_core t []
    else py_file_lines_core t (c :: acc)

/-- The lines of a file given its raw content. -/
def py_file_lines (content : String) : List String :=
  py_file_lines_core content.toList []

/-! ### Character sets (engine.py lines 18-19) -/

def BASE64_CHARS : String :=
  "ABCDEFGHIJKLMNOPQRSTUVWXYZabcdefghijklmnopqrstuvwxyz0123456789+/="

def HEX_CHARS : String := "1234567890abcdefABCDEF"

/-! ### Shannon entropy (`SearchEngine._shannon_entropy`)

The source computes, in floating point,
`entropy += - p_x * math.log(p_x, 2)` for each `x` in the iterator with
`p_x = data.count(x) / len(data) > 0`, returning `0` for empty data.  The
translation uses exact real arithmetic; the guard `p_x > 0` is written on
the integer count (equivalent, since `len(data) > 0` past the emptiness
guard). -/

/-- Python `data.count(x)` for a string. -/
def count_in (data : String) (x : Char) : Nat :=
  data.toList.count x

noncomputable def shannon_entropy (data : String) (iterator : String) : ℝ :=
  if data = "" then 0
  else
    iterator.toList.foldl
      (fun entropy x =>
        if 0 < count_in data x then
          entropy +
            -((count_in data x : ℝ) / (data.toList.length : ℝ) *
              Real.logb 2 ((count_in data x : ℝ) / (data.toList.length : ℝ)))
        else entropy)
      0

/-- Decidable form of the source's float comparison
`_shannon_entropy(data, charset) > num / den` (thresholds `4.5 = 9/2` and
`3 = 3/1`): with `L = len(data)`, `S = Σ_x count(x)` and
`P = Π_x count(x)^count(x)` over the charset, the entropy exceeds
`num/den` iff `2^(num*L) * P^den < L^(den*S)`.  `entropy_gt_iff` proves the
equivalence with `shannon_entropy`. -/
def entropy_gt (data charset : String) (num den : Nat) : Bool :=
  let L := data.toList.length
  let S := (charset.toList.map (fun x => count_in data x)).sum
  let P := (charset.toList.map (fun x => count_in data x ^ count_in data x)).prod
  decide (2 ^ (num * L) * P ^ den < L ^ (den * S))

/-- The source's `b64Entropy > 4.5` test of `_find_entropy`. -/
def flagged_b64 (s : String) : Bool := entropy_gt s BASE64_CHARS 9 2

/-- The source's `hexEntropy > 3` test of `_find_entropy`. -/
def flagged_hex (s : String) : Bool := entropy_gt s HEX_CHARS 3 1

/-! ### Run extraction (`SearchEngine._get_strings_of_set`) -/

/-- Worker mirroring the source's loop state: `count` and `letters` hold the
current run (reversed), a run is emitted when a non-charset character is met
or the word ends, and only if `count > threshold`. -/
def get_strings_core (char_set : List Char) (threshold : Nat) :
    List Char → Nat → List Char → List String
  | [], count, letters =>
    if threshold < count then [String.mk letters.reverse] else []
  | c :: t, count, letters =>
    if char_set.contains c then get_strings_core char_set threshold t (count + 1) (c :: letters)
    else
      (if threshold < count then [String.mk letters.reverse] else []) ++
        get_strings_core char_set threshold t 0 []

/-- `_get_strings_of_set(word, char_set, threshold=20)`: the runs of
`char_set` characters in `word` whose length is strictly greater than
`threshold` (the source's `count > threshold`). -/
def get_strings_of_set (word char_set : String) (threshold : Nat := 20) : List String :=
  get_strings_core char_set.toList threshold word.toList 0 []

/-! ### Terminal colors (`interface/colors.py`) -/

/-- `bcolors.make_warning`: `WARNING + text + ENDC` with the ANSI codes
`'\033[93m'` and `'\033[0m'`. -/
def make_warning (text : String) : String :=
  "\x1b[93m" ++ text ++ "\x1b[0m"

/-! ### Data model

Read-only views provided by GitPython are abstracted as plain records:
a commit is its hash, committer timestamp and message; a diff blob carries
its two paths (the empty string standing for Python's `None`, which the
source only ever tests for truthiness, conflating the two), its diff
payload decoded as UTF-8 with replacement-on-error (`blob.diff.decode`),
and the text uncompyle6 would recover for the `.pyc` branch. -/

structure Commit where
  hexsha : String
  committed_date : Int
  message : String
deriving DecidableEq, Repr

structure Blob where
  a_path : String
  b_path : String
  /-- `blob.diff.decode('utf-8', errors='replace')`. -/
  diff_text : String
  /-- The decompiled source text for a `.pyc` blob (external decompiler). -/
  pyc_decompiled : String
deriving DecidableEq, Repr

/-- The finding dictionary built by `_find_entropy` / `_regex_check`. -/
structure Finding where
  path : String
  reason : String
  found_strings : List String
  commit_hash : String
  branch : String
  date : String
  commit_message : String
  diff : String
deriving DecidableEq, Repr

/-- `blob.b_path if blob.b_path else blob.a_path` (Python truthiness: both
`None` and `""` fall through to `a_path`). -/
def blob_path (b : Blob) : String :=
  if b.b_path ≠ "" then b.b_path else b.a_path

/-! ### Path filter (`_compile_path_regexes`, `_path_included`) -/

/-- `SearchEngine._compile_path_regexes`, on the CONTENT of the pattern
file (reading the file itself is an external effect; `none` stands for the
`filename is None` case).  For each line `l` of the file the source takes
`l[:-1].lstrip()`, deduplicates via `set(...)`, and keeps the patterns that
are non-empty and do not start with `'#'`.  The compiled `re` objects are
represented by their pattern strings; Python's unspecified `set` iteration
order is modelled as first-occurrence order. -/
def compile_path_patterns : Option String → Option (List String)
  | none => none
  | some content =>
    some ((((py_file_lines content).map
        (fun l => py_lstrip (py_dropLast l))).eraseDups).filter
      (fun pattern => !(pattern = "") && !(py_startswith pattern "#")))

/-- Python truthiness of `self.path_inclusions` / `self.path_exclusions`:
`None` and the empty list are falsy. -/
def py_truthy {α : Type} (o : Option (List α)) : Bool :=
  match o with
  | none => false
  | some l => !l.isEmpty

/-- `SearchEngine._path_included`, with the path already extracted.  A
compiled pattern is abstracted as its match function
`fun path => (p.match(path) is not None)` (an `re.match` is anchored at the
start of the path).  Pure: the source has no side effects here. -/
def path_included (inclusions exclusions : Option (List (String → Bool)))
    (path : String) : Bool :=
  if py_truthy inclusions && !((inclusions.getD []).any (fun p => p path)) then false
  else if py_truthy exclusions && (exclusions.getD []).any (fun p => p path) then false
  else true

/-! ### Engine configuration and state

`EngineCfg` packages the constructor arguments of `SearchEngine.__init__`
after the external steps: `regexes` is the insertion-ordered rule dict,
each compiled regex abstracted as its `findall` function;
`path_inclusions` / `path_exclusions` are the compiled pattern sets (match
functions); `fmtTime` abstracts
`datetime.datetime.fromtimestamp(...).strftime('%Y-%m-%d %H:%M:%S')`;
`max_depth = none` is the `math.inf` default. -/

structure EngineCfg where
  regexes : List (String × (String → List String))
  path_inclusions : Option (List (String → Bool))
  path_exclusions : Option (List (String → Bool))
  since_commit : Option String
  max_depth : Option Nat
  fmtTime : Int → String

/-- The version-control collaborator: `iter_commits` (newest first, per
branch name), `prev_commit.diff(curr_commit, create_patch=True)` and
`curr_commit.diff(NULL_TREE, create_patch=True)`. -/
structure Repo where
  commits : String → List Commit
  diffC : Commit → Commit → List Blob
  diffNull : Commit → List Blob

/-- One `_search_diff` dispatch, recorded for specification purposes: which
diff was scanned.  This trace is ghost instrumentation only — it is
appended to, never read, by the engine model. -/
inductive ScanOp where
  | pair (prev curr : Commit)
  | nullTree (curr : Commit)
deriving DecidableEq, Repr

/-- The engine's mutable state: `self.findings`, `self.already_searched`
(a set, modelled as the list of inserted digests), plus the ghost `trace`
of scan operations. -/
structure EngSt where
  findings : List Finding
  already_searched : List String
  trace : List ScanOp
deriving DecidableEq, Repr

/-- `SearchEngine._calculate_diff_hash`:
`md5(str(prev_commit) + str(curr_commit))`.  GitPython's `str(commit)` is
the hexsha and `str(None) = "None"`; the md5 digest is modelled as the
digested string itself (md5 is external; the model keeps the concatenation,
and only ever relies on equal inputs giving equal digests). -/
def calculate_diff_hash (prev_commit : Option Commit) (curr_commit : Commit) : String :=
  (match prev_commit with
   | none => "None"
   | some p => p.hexsha) ++ curr_commit.hexsha

/-! ### Entropy detector (`SearchEngine._find_entropy`)

The source iterates over `printable_diff.split("\n")` (computed once, so
the later rebinding of `printable_diff` by `replace` does not affect the
iteration), then over `line.split()`; for each word it extracts base64 and
hex runs, appends each run that passes the respective entropy threshold to
`found_strings`, and highlights it in the display text.  If any string was
found, one "High Entropy" finding is built. -/

/-- The body of the two inner `for string in ...` loops: `a` is the pair
(found_strings, printable_diff). -/
def entropy_run_step (flag : String → Bool) (a : List String × String)
    (s : String) : List String × String :=
  if flag s then (a.1 ++ [s], py_replace a.2 s (make_warning s)) else a

/-- Processing of one word of one line. -/
def entropy_word_step (a : List String × String) (word : String) :
    List String × String :=
  ((get_strings_of_set word HEX_CHARS).foldl (entropy_run_step flagged_hex)
    ((get_strings_of_set word BASE64_CHARS).foldl (entropy_run_step flagged_b64) a))

/-- `_find_entropy`: returns the finding appended to `self.findings`, if
any.  The unused `commitHash` parameter is kept because the source takes
(and ignores) it too. -/
def find_entropy (printable_diff commit_time branch_name : String)
    (prev_commit : Commit) (blob : Blob) (commitHash : String) : Option Finding :=
  let r := (py_split_newlines printable_diff).foldl
    (fun a line => (py_words line).foldl entropy_word_step a)
    ([], printable_diff)
  if 0 < r.1.length then
    some { path := blob_path blob, reason := "High Entropy", found_strings := r.1,
           commit_hash := prev_commit.hexsha, branch := branch_name,
           date := commit_time, commit_message := prev_commit.message, diff := r.2 }
  else none

/-- The declarative value of `found_strings` proved (in
`entropy_detector_spec`) to be what `find_entropy` collects: per line, per
word, the base64 runs passing the base64 threshold followed by the hex runs
passing the hex threshold. -/
def word_found (word : String) : List String :=
  (get_strings_of_set word BASE64_CHARS).filter flagged_b64 ++
    (get_strings_of_set word HEX_CHARS).filter flagged_hex

def entropy_found_strings (text : String) : List String :=
  (py_split_newlines text).flatMap (fun line => (py_words line).flatMap word_found)

/-! ### Regex detector (`SearchEngine._regex_check`) -/

/-- `_regex_check`: for each rule, in insertion order of `self.regexes`,
run `regex.findall` on the CURRENT `printable_diff` (which earlier rules
may already have annotated), highlight every match in it, and if any match
exists append one "Regex Match: <key>" finding.  A compiled regex is
abstracted as its `findall` function. -/
def regex_check (regexes : List (String × (String → List String)))
    (printable_diff commit_time branch_name : String)
    (prev_commit : Commit) (blob : Blob) (commitHash : String) : List Finding :=
  (regexes.foldl
    (fun (a : String × List Finding) kr =>
      let found_strings := kr.2 a.1
      let annotated := found_strings.foldl
        (fun t s => py_replace t s (make_warning s)) a.1
      if found_strings.isEmpty then (annotated, a.2)
      else
        (annotated, a.2 ++
          [{ path := blob_path blob, reason := "Regex Match: " ++ kr.1,
             found_strings := found_strings, commit_hash := prev_commit.hexsha,
             branch := branch_name, date := commit_time,
             commit_message := prev_commit.message, diff := annotated }]))
    (printable_diff, []))|>.2

/-- Modelled from the spec: the Regex Detector contract
`scan(text, ruleSet) -> List[(ruleName, matches)]`, one entry per rule with
a non-empty match list, in rule order — except that, as the code does, each
rule's global match runs on the text as already annotated by the preceding
rules.  Each entry also records the annotated text at that point (the
finding's `diff` field). -/
def regex_scan (rules : List (String × (String → List String))) (text : String) :
    List (String × List String × String) :=
  match rules with
  | [] => []
  | (k, r) :: rest =>
    let found := r text
    let annotated := found.foldl (fun t s => py_replace t s (make_warning s)) text
    if found.isEmpty then regex_scan rest text
    else (k, found, annotated) :: regex_scan rest annotated

/-! ### Diff extraction and scanning (`SearchEngine._search_diff`) -/

/-- Both detectors over one printable text (`_search_diff` lines 192-194):
the entropy finding, if any, then the regex findings. -/
def detect (cfg : EngineCfg) (printable : String) (commit_time branch_name : String)
    (prev_commit : Commit) (blob : Blob) (curr_hexsha : String) : List Finding :=
  (find_entropy printable commit_time branch_name prev_commit blob curr_hexsha).toList ++
    regex_check cfg.regexes printable commit_time branch_name prev_commit blob curr_hexsha

/-- The per-blob body of `_search_diff`.  The first component records the
text the detectors ran on (`none` = the entry was skipped by `continue`).
A `.pyc` path goes through the external decompiler (`blob.pyc_decompiled`);
otherwise the decoded diff is scanned, unless it carries the git binary
marker AND the path fails the filter. -/
def scan_blob (cfg : EngineCfg) (blob : Blob) (curr_commit prev_commit : Commit)
    (branch_name : String) : Option String × List Finding :=
  let path := blob_path blob
  let commit_time := cfg.fmtTime prev_commit.committed_date
  if py_endswith path ".pyc" then
    (some blob.pyc_decompiled,
      detect cfg blob.pyc_decompiled commit_time branch_name prev_commit blob
        curr_commit.hexsha)
  else
    if py_startswith blob.diff_text "Binary files" &&
        !(path_included cfg.path_inclusions cfg.path_exclusions path) then
      (none, [])
    else
      (some blob.diff_text,
        detect cfg blob.diff_text commit_time branch_name prev_commit blob
          curr_commit.hexsha)

/-- `_search_diff`: fold the per-blob scan over the diff, appending to the
accumulated `self.findings`. -/
def search_diff (cfg : EngineCfg) (diff : List Blob) (curr_commit prev_commit : Commit)
    (branch_name : String) (findings : List Finding) : List Finding :=
  diff.foldl
    (fun fs blob => fs ++ (scan_blob cfg blob curr_commit prev_commit branch_name).2)
    findings

/-! ### History walker (`SearchEngine._search_branch`) -/

/-- The commit loop of `_search_branch`.  Returns the state, the last
visited commit (the loop's `curr_commit` after exhaustion, used by the
final NULL_TREE diff) and whether the `since_commit` early `return` fired.
The source computes `diff_hash` before testing `prev_commit`; the model
computes it in the branch where it is used, which is observationally the
same. -/
def walk (cfg : EngineCfg) (repo : Repo) (branch_name : String) :
    List Commit → Option Commit → EngSt → EngSt × Option Commit × Bool
  | [], prev, st => (st, prev, false)
  | curr :: rest, prev, st =>
    if cfg.since_commit = some curr.hexsha then (st, prev, true)
    else
      match prev with
      | none => walk cfg repo branch_name rest (some curr) st
      | some p =>
        let diff_hash := calculate_diff_hash (some p) curr
        if diff_hash ∈ st.already_searched then
          walk cfg repo branch_name rest (some curr) st
        else
          walk cfg repo branch_name rest (some curr)
            { findings := search_diff cfg (repo.diffC p curr) curr p branch_name
                st.findings,
              already_searched := diff_hash :: st.already_searched,
              trace := st.trace ++ [ScanOp.pair p curr] }

/-- `_search_branch`: walk the branch's commits (newest first, capped by
`max_depth`), then — unless the stop marker ended the walk — diff the
oldest visited commit against NULL_TREE and scan that too (with
`prev_commit = curr_commit`, both being the last visited commit).  An empty
commit list makes the source raise `NameError` (`curr_commit` unbound);
the model leaves the state unchanged there (unreachable in the claims). -/
def search_branch (cfg : EngineCfg) (repo : Repo) (branch_name : String)
    (st : EngSt) : EngSt :=
  let commits :=
    match cfg.max_depth with
    | none => repo.commits branch_name
    | some d => (repo.commits branch_name).take d
  match walk cfg repo branch_name commits none st with
  | (st', _, true) => st'
  | (st', none, false) => st'
  | (st', some last, false) =>
    { st' with
      findings := search_diff cfg (repo.diffNull last) last last branch_name
        st'.findings,
      trace := st'.trace ++ [ScanOp.nullTree last] }

/-- `find_secrets`, after branch resolution (fetching from the remote is
external): walk every branch with the one shared engine state. -/
def run_engine (cfg : EngineCfg) (repo : Repo) (branches : List String) : EngSt :=
  branches.foldl (fun st b => search_branch cfg repo b st) ⟨[], [], []⟩

/-- The memoisation key a `ScanOp.pair` was recorded under. -/
def pair_key : ScanOp → Option String
  | ScanOp.pair p c => some (calculate_diff_hash (some p) c)
  | ScanOp.nullTree _ => none

def pair_keys (t : List ScanOp) : List String :=
  t.filterMap pair_key

/-! ### Concrete `re.findall` instances

`re.findall(pattern, text)` scans the text left to right, taking the
leftmost match at each position and resuming after its end
(non-overlapping).  `py_findall` implements that scan for any
match-at-position function; the concrete matchers below implement the
specific patterns the claims mention. -/

/-- The `re` scan loop: try to match at the current position; on success
emit the match and resume after it, otherwise advance one character.  The
fuel is the text length (every step consumes at least one character for the
matchers used here, which never match the empty string). -/
def scan_matches (matchAt : List Char → Option (List Char × List Char)) :
    Nat → List Char → List String
  | 0, _ => []
  | _ + 1, [] => []
  | fuel + 1, c :: t =>
    match matchAt (c :: t) with
    | some (m, rest) => String.mk m :: scan_matches matchAt fuel rest
    | none => scan_matches matchAt fuel t

def py_findall (matchAt : List Char → Option (List Char × List Char))
    (s : String) : List String :=
  scan_matches matchAt (s.toList.length + 1) s.toList

/-- Matching a literal (metacharacter-free) pattern at the current
position. -/
def lit_matchAt (pat : String) (cs : List Char) : Option (List Char × List Char) :=
  if !pat.toList.isEmpty && pat.toList.isPrefixOf cs then
    some (pat.toList, cs.drop pat.toList.length)
  else none

/-- `re.findall` for a literal pattern. -/
def lit_findall (pat : String) (s : String) : List String :=
  py_findall (lit_matchAt pat) s

/-- Matching the rule `AKIA[0-9A-Z]{16}` at the current position. -/
def aws_matchAt (cs : List Char) : Option (List Char × List Char) :=
  let body := (cs.drop 4).take 16
  if cs.take 4 = "AKIA".toList && body.length = 16 &&
      body.all (fun c => c.isDigit || ('A' ≤ c && c ≤ 'Z')) then
    some (cs.take 20, cs.drop 20)
  else none

/-- `re.findall` for the pattern `AKIA[0-9A-Z]{16}`. -/
def aws_findall (s : String) : List String :=
  py_findall aws_matchAt s

/-! ### Entry points and the `find_secrets` call (`main/app.py`)

`SearchEngine.find_secrets` is declared
`def find_secrets(self, branch: str=None, print_json: bool=False)`
(engine.py line 36) with no `**kwargs`; the `local`, `url` and `github`
entry points all call
`engine.find_secrets(branch=..., print_json=..., skip_entropy=...,
skip_regex=...)` (app.py lines 15, 27).  Python binds keyword arguments by
name and raises `TypeError` on an unexpected one, before the body runs. -/

/-- The keyword parameter names `find_secrets` accepts. -/
def find_secrets_param_names : List String := ["branch", "print_json"]

/-- The keyword argument names every entry point passes. -/
def entry_point_kwarg_names : List String :=
  ["branch", "print_json", "skip_entropy", "skip_regex"]

/-- Python's keyword-binding check: every passed name must be a declared
parameter. -/
def python_kwcall_ok (params kwargs : List String) : Bool :=
  kwargs.all (fun k => params.contains k)

/-- Calling `engine.find_secrets(...)` with the given keyword names:
`TypeError` if a name is unexpected, otherwise the scan runs (the scan
itself is abstracted as `run`, since the claims only need that it is never
reached). -/
def call_find_secrets (kwargs : List String) (run : Unit → List Finding) :
    Except String (List Finding) :=
  if python_kwcall_ok find_secrets_param_names kwargs then Except.ok (run ())
  else Except.error "TypeError"

/-- `app.local`: builds the engine (external: `Repo(path)`, rule loading)
and then makes the offending `find_secrets` call. -/
def local_entry (run : Unit → List Finding) : Except String (List Finding) :=
  call_find_secrets entry_point_kwarg_names run

/-- `app.url`: clones (external) and makes the same call. -/
def url_entry (run : Unit → List Finding) : Except String (List Finding) :=
  call_find_secrets entry_point_kwarg_names run

/-- `app.github`: enumerates the user's repos and calls `url(args)` for
each inside one bare `try/except`; the first exception aborts the loop and
is swallowed (an error message is printed), so no findings are ever
returned. -/
def github_entry : List (Unit → List Finding) → Except String (List Finding)
  | [] => Except.ok []
  | r :: rest =>
    match url_entry r with
    | Except.error _ => Except.ok []
    | Except.ok fs => (github_entry rest).map (fun tail => fs ++ tail)

/-! ### Concrete instances used by the counterexamples and witnesses -/

/-- 25 `a`s: a maximal single-repeated-character run under both charsets. -/
def a25 : String := String.mk (List.replicate 25 'a')

def commit_old : Commit := ⟨"oldhash", 100, "initial import"⟩

def commit_new : Commit := ⟨"newhash", 200, "rotate credentials"⟩

def commit_root : Commit := ⟨"roothash", 50, "root"⟩

def blob_secret : Blob :=
  ⟨"", "creds.txt", "password SECRETTOKEN here", ""⟩

def blob_binary : Blob :=
  ⟨"", "bin/blob.dat", "Binary files a/bin/blob.dat and b/bin/blob.dat differ", ""⟩

/-- A one-rule set matching the literal string `SECRETTOKEN`. -/
def cfg_secret : EngineCfg :=
  ⟨[("tok", lit_findall "SECRETTOKEN")], none, none, none, none,
    fun t => toString t⟩

/-- A branch `main` of two commits whose pair diff contains the secret;
the NULL_TREE diff is empty. -/
def repo_two_commits : Repo :=
  ⟨fun b => if b = "main" then [commit_new, commit_old] else [],
   fun _ _ => [blob_secret], fun _ => []⟩

/-- Every branch points at the single root commit; only the NULL_TREE diff
has content. -/
def repo_shared_root : Repo :=
  ⟨fun _ => [commit_root], fun _ _ => [], fun _ => [blob_secret]⟩

/-- Three-commit scenario fixture for the walk claim's witness. -/
def commit_c1 : Commit := ⟨"aa", 1, "m1"⟩

def commit_c2 : Commit := ⟨"bb", 2, "m2"⟩

def commit_c3 : Commit := ⟨"cc", 3, "m3"⟩

def repo_three_commits : Repo :=
  ⟨fun b => if b = "main" then [commit_c3, commit_c2, commit_c1] else [],
   fun _ _ => [], fun _ => []⟩

def cfg_plain : EngineCfg := ⟨[], none, none, none, none, fun _ => ""⟩

/-- A configuration whose exclusion set rejects paths under `bin/`. -/
def cfg_exclude_bin : EngineCfg :=
  ⟨[], none, some [fun s => py_startswith s "bin/"], none, none, fun _ => ""⟩

/-- Two literal rules where the first rule's highlighting destroys the
second rule's match. -/
def rules_ab_abc : List (String × (String → List String)) :=
  [("r1", lit_findall "ab"), ("r2", lit_findall "abc")]

/-- The one finding scanning `blob_secret` between `commit_new` (newer,
`prev_commit`) and `commit_old` (older, `curr_commit`) produces. -/
def witness_finding : Finding :=
  { path := "creds.txt", reason := "Regex Match: tok",
    found_strings := ["SECRETTOKEN"], commit_hash := "newhash", branch := "main",
    date := "200", commit_message := "rotate credentials",
    diff := py_replace "password SECRETTOKEN here" "SECRETTOKEN"
      (make_warning "SECRETTOKEN") }

/-! ## Theorems -/

/-! ### List helpers -/

theorem foldl_append_flatMap {α β : Type} (g : α → List β) :
    ∀ (l : List α) (init : List β),
      l.foldl (fun a b => a ++ g b) init = init ++ l.flatMap g
  | [], init => by simp
  | b :: t, init => by
    simp only [List.foldl_cons, List.flatMap_cons]
    rw [foldl_append_flatMap g t (init ++ g b), List.append_assoc]

theorem foldl_add_ite {α : Type} (f : α → ℝ) (p : α → Prop) [DecidablePred p] :
    ∀ (l : List α) (r : ℝ),
      l.foldl (fun e x => if p x then e + f x else e) r =
        r + (l.map (fun x => if p x then f x else 0)).sum
  | [], r => by simp
  | x :: t, r => by
    simp only [List.foldl_cons, List.map_cons, List.sum_cons]
    by_cases hx : p x
    · rw [if_pos hx, if_pos hx, foldl_add_ite f p t (r + f x)]; ring
    · rw [if_neg hx, if_neg hx, foldl_add_ite f p t r]; ring

theorem list_sum_map_div {α : Type} (f : α → ℝ) (c : ℝ) :
    ∀ l : List α, (l.map (fun x => f x / c)).sum = (l.map f).sum / c
  | [] => by simp
  | x :: t => by
    simp only [List.map_cons, List.sum_cons, list_sum_map_div f c t, add_div]

theorem list_sum_map_sub {α : Type} (f g : α → ℝ) :
    ∀ l : List α, (l.map (fun x => f x - g x)).sum = (l.map f).sum - (l.map g).sum
  | [] => by simp
  | x :: t => by
    simp only [List.map_cons, List.sum_cons, list_sum_map_sub f g t]; ring

theorem list_sum_map_mul_right {α : Type} (f : α → ℝ) (c : ℝ) :
    ∀ l : List α, (l.map (fun x => f x * c)).sum = (l.map f).sum * c
  | [] => by simp
  | x :: t => by
    simp only [List.map_cons, List.sum_cons, list_sum_map_mul_right f c t]; ring

/-! ### The entropy threshold test -/

theorem nat_self_pow_pos (n : ℕ) : 0 < n ^ n := by
  cases n with
  | zero => simp
  | succ m => exact pow_pos (Nat.succ_pos m) _

theorem counts_prod_pos (data : String) (l : List Char) :
    0 < (l.map (fun x => count_in data x ^ count_in data x)).prod := by
  induction l with
  | nil => simp
  | cons x t ih =>
    simp only [List.map_cons, List.prod_cons]
    exact Nat.mul_pos (nat_self_pow_pos _) ih

/-- `Σ_{x ∈ l} count(x)·log2 count(x) = log2 (Π_{x ∈ l} count(x)^count(x))`. -/
theorem sum_mul_logb_count (data : String) :
    ∀ l : List Char,
      (l.map (fun x => (count_in data x : ℝ) * Real.logb 2 (count_in data x : ℝ))).sum =
        Real.logb 2 (((l.map (fun x => count_in data x ^ count_in data x)).prod : ℕ) : ℝ)
  | [] => by simp
  | x :: t => by
    have hx : (0 : ℝ) < ((count_in data x ^ count_in data x : ℕ) : ℝ) := by
      exact_mod_cast nat_self_pow_pos (count_in data x)
    have ht : (0 : ℝ) <
        (((t.map (fun x => count_in data x ^ count_in data x)).prod : ℕ) : ℝ) := by
      exact_mod_cast counts_prod_pos data t
    simp only [List.map_cons, List.sum_cons, List.prod_cons]
    rw [sum_mul_logb_count data t, Nat.cast_mul,
      Real.logb_mul (ne_of_gt hx) (ne_of_gt ht), Nat.cast_pow, Real.logb_pow]

/-- The closed form of `shannon_entropy` on non-empty data, with
`L = len(data)`, `S = Σ count` and `P = Π count^count` over the iterator:
`H = (S·log2 L - log2 P) / L`. -/
theorem shannon_entropy_closed_form (data charset : String) (hd : data ≠ "") :
    shannon_entropy data charset =
      (((charset.toList.map (fun x => count_in data x)).sum : ℝ) *
          Real.logb 2 (data.toList.length : ℝ) -
        Real.logb 2
          (((charset.toList.map
              (fun x => count_in data x ^ count_in data x)).prod : ℕ) : ℝ)) /
        (data.toList.length : ℝ) := by
  have hnil : data.toList ≠ [] := fun h => hd (String.ext h)
  have hL : 0 < data.toList.length := List.length_pos.mpr hnil
  have hLr : (0 : ℝ) < (data.toList.length : ℝ) := by exact_mod_cast hL
  rw [shannon_entropy, if_neg hd,
    foldl_add_ite
      (fun x =>
        -((count_in data x : ℝ) / (data.toList.length : ℝ) *
          Real.logb 2 ((count_in data x : ℝ) / (data.toList.length : ℝ))))
      (fun x => 0 < count_in data x), zero_add]
  have hterm :
      ∀ x : Char,
        (if 0 < count_in data x then
          -((count_in data x : ℝ) / (data.toList.length : ℝ) *
            Real.logb 2 ((count_in data x : ℝ) / (data.toList.length : ℝ)))
        else 0) =
          ((count_in data x : ℝ) *
              (Real.logb 2 (data.toList.length : ℝ) -
                Real.logb 2 (count_in data x : ℝ))) /
            (data.toList.length : ℝ) := by
    intro x
    by_cases hx : 0 < count_in data x
    · have hxr : ((count_in data x : ℕ) : ℝ) ≠ 0 := by
        exact_mod_cast Nat.pos_iff_ne_zero.mp hx
      rw [if_pos hx, Real.logb_div hxr (ne_of_gt hLr)]
      ring
    · have hx0 : count_in data x = 0 := Nat.eq_zero_of_not_pos hx
      rw [if_neg hx, hx0]
      simp
  rw [List.map_congr_left (fun x _ => hterm x), list_sum_map_div]
  congr 1
  rw [List.map_congr_left
    (fun (x : Char) _ =>
      (mul_sub ((count_in data x : ℕ) : ℝ) (Real.logb 2 (data.toList.length : ℝ))
        (Real.logb 2 ((count_in data x : ℕ) : ℝ)))),
    list_sum_map_sub, list_sum_map_mul_right, sum_mul_logb_count data charset.toList]
  congr 2
  rw [Nat.cast_list_sum, List.map_map]
  rfl

/-- The counts, sum and product of empty data. -/
theorem counts_of_empty (x : Char) : count_in "" x = 0 := rfl

/-- `entropy_gt` is exactly the source's float comparison
`_shannon_entropy(data, charset) > num/den`, as an inequality of exact
reals. -/
theorem entropy_gt_iff (data charset : String) (num den : ℕ)
    (hnum : 0 < num) (hden : 0 < den) :
    entropy_gt data charset num den = true ↔
      ((num : ℝ) / (den : ℝ)) < shannon_entropy data charset := by
  by_cases hd : data = ""
  · subst hd
    have hmap : ∀ l : List Char, (l.map (fun x => count_in "" x)).sum = 0 := by
      intro l
      simp [counts_of_empty]
    have hmapP : ∀ l : List Char,
        (l.map (fun x => count_in "" x ^ count_in "" x)).prod = 1 := by
      intro l
      simp [counts_of_empty]
    constructor
    · intro h
      exfalso
      rw [entropy_gt, decide_eq_true_eq] at h
      rw [hmap, hmapP] at h
      simp at h
    · intro h
      exfalso
      have h0 : shannon_entropy "" charset = 0 := by rw [shannon_entropy]; simp
      rw [h0] at h
      have : (0 : ℝ) < (num : ℝ) / (den : ℝ) :=
        div_pos (by exact_mod_cast hnum) (by exact_mod_cast hden)
      linarith
  · have hnil : data.toList ≠ [] := fun h => hd (String.ext h)
    have hL : 0 < data.toList.length := List.length_pos.mpr hnil
    have hLr : (0 : ℝ) < (data.toList.length : ℝ) := by exact_mod_cast hL
    have hdenr : (0 : ℝ) < (den : ℝ) := by exact_mod_cast hden
    have hPpos : 0 < (charset.toList.map
        (fun x => count_in data x ^ count_in data x)).prod := counts_prod_pos data _
    have hPr : (0 : ℝ) < (((charset.toList.map
        (fun x => count_in data x ^ count_in data x)).prod : ℕ) : ℝ) := by
      exact_mod_cast hPpos
    rw [shannon_entropy_closed_form data charset hd, entropy_gt, decide_eq_true_eq]
    rw [div_lt_div_iff₀ hdenr hLr]
    have h2L : (0 : ℝ) < (2 : ℝ) ^ (num * data.toList.length) := by positivity
    have hPd : (0 : ℝ) < (((charset.toList.map
        (fun x => count_in data x ^ count_in data x)).prod : ℕ) : ℝ) ^ den := by
      positivity
    have hcast : (2 ^ (num * data.toList.length) *
        ((charset.toList.map (fun x => count_in data x ^ count_in data x)).prod) ^ den <
          data.toList.length ^
            (den * (charset.toList.map (fun x => count_in data x)).sum)) ↔
        ((2 : ℝ) ^ (num * data.toList.length) *
          (((charset.toList.map
            (fun x => count_in data x ^ count_in data x)).prod : ℕ) : ℝ) ^ den <
          ((data.toList.length : ℕ) : ℝ) ^
            (den * (charset.toList.map (fun x => count_in data x)).sum)) := by
      rw [← Nat.cast_lt (α := ℝ)]
      push_cast
      rfl
    rw [hcast,
      ← Real.logb_lt_logb_iff (b := 2) one_lt_two
        (mul_pos h2L hPd) (by positivity),
      Real.logb_mul (ne_of_gt h2L) (ne_of_gt hPd), Real.logb_pow, Real.logb_pow,
      Real.logb_pow, Real.logb_self_eq_one one_lt_two, mul_one]
    push_cast
    constructor
    · intro h
      nlinarith [h]
    · intro h
      nlinarith [h]

/-- A string all of whose counted characters either do not occur or fill
the whole string has zero entropy (each summand of `_shannon_entropy`
vanishes: `p_x` is `0` or `1`). -/
theorem shannon_entropy_eq_zero (data charset : String)
    (h : ∀ x ∈ charset.toList,
      count_in data x = 0 ∨ count_in data x = data.toList.length) :
    shannon_entropy data charset = 0 := by
  by_cases hd : data = ""
  · rw [hd, shannon_entropy]; simp
  · have hnil : data.toList ≠ [] := fun hn => hd (String.ext hn)
    have hL : 0 < data.toList.length := List.length_pos.mpr hnil
    have hLr : (0 : ℝ) < (data.toList.length : ℝ) := by exact_mod_cast hL
    rw [shannon_entropy, if_neg hd, foldl_add_ite, zero_add]
    apply List.sum_eq_zero
    intro r hr
    rcases List.mem_map.mp hr with ⟨x, hx, hxr⟩
    rcases h x hx with h0 | hfull
    · rw [← hxr, if_neg (by omega)]
    · rw [← hxr]
      by_cases hpos : 0 < count_in data x
      · rw [if_pos hpos, hfull, div_self (ne_of_gt hLr)]
        simp
      · rw [if_neg hpos]

/-- The entropy of a single repeated character is `0` under either charset,
so such a run is never flagged (`_find_entropy`'s thresholds are
positive). -/
theorem single_repeat_entropy_zero (c : Char) (n : ℕ) (charset : String) :
    shannon_entropy (String.mk (List.replicate n c)) charset = 0 := by
  apply shannon_entropy_eq_zero
  intro x _
  by_cases hx : x = c
  · right
    subst hx
    simp [count_in, String.toList, List.count_replicate]
  · left
    simp [count_in, String.toList, List.count_replicate, hx]
    intro hcx
    exact absurd hcx.symm hx

/-- A single repeated character is never flagged under either charset. -/
theorem single_repeat_not_flagged (c : Char) (n : ℕ) :
    flagged_b64 (String.mk (List.replicate n c)) = false ∧
      flagged_hex (String.mk (List.replicate n c)) = false := by
  constructor
  · cases hb : flagged_b64 (String.mk (List.replicate n c)) with
    | false => rfl
    | true =>
      exfalso
      have h9 := (entropy_gt_iff (String.mk (List.replicate n c)) BASE64_CHARS 9 2
        (by norm_num) (by norm_num)).mp hb
      rw [single_repeat_entropy_zero] at h9
      norm_num at h9
  · cases hb : flagged_hex (String.mk (List.replicate n c)) with
    | false => rfl
    | true =>
      exfalso
      have h3 := (entropy_gt_iff (String.mk (List.replicate n c)) HEX_CHARS 3 1
        (by norm_num) (by norm_num)).mp hb
      rw [single_repeat_entropy_zero] at h3
      norm_num at h3

/-! ### `_find_entropy`: what `found_strings` collects -/

theorem entropy_run_fold_found (flag : String → Bool) :
    ∀ (l : List String) (acc : List String × String),
      (l.foldl (entropy_run_step flag) acc).1 = acc.1 ++ l.filter flag
  | [], acc => by simp
  | s :: t, acc => by
    simp only [List.foldl_cons]
    by_cases hs : flag s
    · rw [List.filter_cons_of_pos hs,
        entropy_run_fold_found flag t (entropy_run_step flag acc s),
        entropy_run_step, if_pos hs]
      simp
    · rw [List.filter_cons_of_neg (by simp [hs]),
        entropy_run_fold_found flag t (entropy_run_step flag acc s),
        entropy_run_step, if_neg (by simp [hs])]

theorem entropy_word_step_found (acc : List String × String) (word : String) :
    (entropy_word_step acc word).1 = acc.1 ++ word_found word := by
  rw [entropy_word_step, entropy_run_fold_found, entropy_run_fold_found, word_found,
    List.append_assoc]

theorem entropy_words_fold_found :
    ∀ (ws : List String) (acc : List String × String),
      (ws.foldl entropy_word_step acc).1 = acc.1 ++ ws.flatMap word_found
  | [], acc => by simp
  | w :: t, acc => by
    simp only [List.foldl_cons, List.flatMap_cons]
    rw [entropy_words_fold_found t (entropy_word_step acc w),
      entropy_word_step_found, List.append_assoc]

theorem entropy_lines_fold_found :
    ∀ (lines : List String) (acc : List String × String),
      (lines.foldl (fun a line => (py_words line).foldl entropy_word_step a) acc).1 =
        acc.1 ++ lines.flatMap (fun line => (py_words line).flatMap word_found)
  | [], acc => by simp
  | line :: t, acc => by
    simp only [List.foldl_cons, List.flatMap_cons]
    rw [entropy_lines_fold_found t, entropy_words_fold_found, List.append_assoc]

/-- The strings `_find_entropy` accumulates are exactly the per-charset
threshold-filtered runs, in scan order. -/
theorem find_entropy_found (text : String) :
    ((py_split_newlines text).foldl
      (fun a line => (py_words line).foldl entropy_word_step a)
      ([], text)).1 = entropy_found_strings text := by
  rw [entropy_lines_fold_found, entropy_found_strings]
  simp

theorem find_entropy_none_iff (text commit_time branch_name : String)
    (prev_commit : Commit) (blob : Blob) (commitHash : String) :
    find_entropy text commit_time branch_name prev_commit blob commitHash = none ↔
      entropy_found_strings text = [] := by
  rw [find_entropy]
  simp only [find_entropy_found text]
  split_ifs with h
  · simp only [iff_false_intro (List.ne_nil_of_length_pos h)]
  · have : entropy_found_strings text = [] := by
      cases he : entropy_found_strings text with
      | nil => rfl
      | cons a t => rw [he] at h; simp at h
    simp [this]

theorem find_entropy_some_fields (text commit_time branch_name : String)
    (prev_commit : Commit) (blob : Blob) (commitHash : String) (f : Finding)
    (h : find_entropy text commit_time branch_name prev_commit blob commitHash = some f) :
    f.found_strings = entropy_found_strings text ∧ f.reason = "High Entropy" ∧
      f.commit_hash = prev_commit.hexsha ∧ f.date = commit_time ∧
      f.commit_message = prev_commit.message := by
  rw [find_entropy] at h
  simp only [find_entropy_found text] at h
  split_ifs at h with hpos
  · cases h
    exact ⟨rfl, rfl, rfl, rfl, rfl⟩

/-! ### `_regex_check` versus the per-rule scan -/

theorem regex_check_eq_scan_aux (commit_time branch_name : String)
    (prev_commit : Commit) (blob : Blob) :
    ∀ (rules : List (String × (String → List String))) (text : String)
      (fs : List Finding),
      (rules.foldl
        (fun (a : String × List Finding) kr =>
          let found_strings := kr.2 a.1
          let annotated := found_strings.foldl
            (fun t s => py_replace t s (make_warning s)) a.1
          if found_strings.isEmpty then (annotated, a.2)
          else
            (annotated, a.2 ++
              [{ path := blob_path blob, reason := "Regex Match: " ++ kr.1,
                 found_strings := found_strings,
                 commit_hash := prev_commit.hexsha, branch := branch_name,
                 date := commit_time, commit_message := prev_commit.message,
                 diff := annotated }]))
        (text, fs)).2 =
        fs ++ (regex_scan rules text).map
          (fun e =>
            { path := blob_path blob, reason := "Regex Match: " ++ e.1,
              found_strings := e.2.1, commit_hash := prev_commit.hexsha,
              branch := branch_name, date := commit_time,
              commit_message := prev_commit.message, diff := e.2.2 })
  | [], text, fs => by simp [regex_scan]
  | (k, r) :: rest, text, fs => by
    simp only [List.foldl_cons, regex_scan]
    by_cases hempty : (r text).isEmpty
    · have hnil : r text = [] := List.isEmpty_iff.mp hempty
      rw [if_pos hempty, if_pos hempty]
      simp only [hnil, List.foldl_nil]
      exact regex_check_eq_scan_aux commit_time branch_name prev_commit blob rest text fs
    · rw [if_neg hempty, if_neg hempty]
      rw [regex_check_eq_scan_aux commit_time branch_name prev_commit blob rest _ _]
      simp

/-- `_regex_check` emits exactly one finding per rule whose `findall` on
the evolving text is non-empty, in rule order. -/
theorem regex_check_eq_scan (rules : List (String × (String → List String)))
    (text commit_time branch_name : String) (prev_commit : Commit) (blob : Blob)
    (commitHash : String) :
    regex_check rules text commit_time branch_name prev_commit blob commitHash =
      (regex_scan rules text).map
        (fun e =>
          { path := blob_path blob, reason := "Regex Match: " ++ e.1,
            found_strings := e.2.1, commit_hash := prev_commit.hexsha,
            branch := branch_name, date := commit_time,
            commit_message := prev_commit.message, diff := e.2.2 }) := by
  rw [regex_check]
  exact regex_check_eq_scan_aux commit_time branch_name prev_commit blob rules text []

/-- The contributing rules are a subsequence of the rule set: at most one
finding per rule, in insertion order. -/
theorem regex_scan_names_sublist :
    ∀ (rules : List (String × (String → List String))) (text : String),
      List.Sublist ((regex_scan rules text).map (fun e => e.1))
        (rules.map (fun kr => kr.1))
  | [], _ => by simp [regex_scan]
  | (k, r) :: rest, text => by
    simp only [regex_scan]
    by_cases hempty : (r text).isEmpty
    · rw [if_pos hempty]
      exact List.Sublist.cons _ (regex_scan_names_sublist rest text)
    · rw [if_neg hempty]
      simp only [List.map_cons]
      exact List.Sublist.cons₂ _ (regex_scan_names_sublist rest _)

/-- A rule contributes only when its matches are non-empty. -/
theorem regex_scan_matches_ne_nil :
    ∀ (rules : List (String × (String → List String))) (text : String),
      ∀ e ∈ regex_scan rules text, e.2.1 ≠ []
  | [], _ => by simp [regex_scan]
  | (k, r) :: rest, text => by
    simp only [regex_scan]
    by_cases hempty : (r text).isEmpty
    · rw [if_pos hempty]
      exact regex_scan_matches_ne_nil rest text
    · rw [if_neg hempty]
      intro e he
      rcases List.mem_cons.mp he with he | he
      · subst he
        simpa [List.isEmpty_iff] using hempty
      · exact regex_scan_matches_ne_nil rest _ e he

/-! ### Commit attribution of findings -/

/-- Every finding either detector creates carries `prev_commit`'s hash, the
formatted `prev_commit.committed_date` (passed as `commit_time`), and
`prev_commit.message`. -/
theorem detect_fields (cfg : EngineCfg) (printable commit_time branch_name : String)
    (prev_commit : Commit) (blob : Blob) (curr_hexsha : String) (f : Finding)
    (h : f ∈ detect cfg printable commit_time branch_name prev_commit blob curr_hexsha) :
    f.commit_hash = prev_commit.hexsha ∧ f.date = commit_time ∧
      f.commit_message = prev_commit.message := by
  rw [detect] at h
  rcases List.mem_append.mp h with h | h
  · cases hfe : find_entropy printable commit_time branch_name prev_commit blob
      curr_hexsha with
    | none => rw [hfe] at h; simp at h
    | some g =>
      rw [hfe] at h
      simp only [Option.toList_some, List.mem_singleton] at h
      have hff := find_entropy_some_fields printable commit_time branch_name
        prev_commit blob curr_hexsha g hfe
      rw [h]
      exact ⟨hff.2.2.1, hff.2.2.2.1, hff.2.2.2.2⟩
  · rw [regex_check_eq_scan] at h
    rcases List.mem_map.mp h with ⟨e, _, he⟩
    rw [← he]
    exact ⟨rfl, rfl, rfl⟩

theorem scan_blob_fields (cfg : EngineCfg) (blob : Blob) (curr_commit prev_commit : Commit)
    (branch_name : String) (f : Finding)
    (h : f ∈ (scan_blob cfg blob curr_commit prev_commit branch_name).2) :
    f.commit_hash = prev_commit.hexsha ∧
      f.date = cfg.fmtTime prev_commit.committed_date ∧
      f.commit_message = prev_commit.message := by
  rw [scan_blob] at h
  split_ifs at h with h1 h2
  · exact detect_fields _ _ _ _ _ _ _ _ h
  · simp at h
  · exact detect_fields _ _ _ _ _ _ _ _ h

/-- `_search_diff` only appends: the new findings are those of the blobs. -/
theorem search_diff_eq_append (cfg : EngineCfg) (diff : List Blob)
    (curr_commit prev_commit : Commit) (branch_name : String) (findings : List Finding) :
    search_diff cfg diff curr_commit prev_commit branch_name findings =
      findings ++
        diff.flatMap
          (fun blob => (scan_blob cfg blob curr_commit prev_commit branch_name).2) := by
  rw [search_diff, foldl_append_flatMap]

/-! ### The walker's dedup bookkeeping -/

theorem pair_keys_append (t₁ t₂ : List ScanOp) :
    pair_keys (t₁ ++ t₂) = pair_keys t₁ ++ pair_keys t₂ := by
  rw [pair_keys, pair_keys, pair_keys, List.filterMap_append]

theorem pair_keys_nullTree (c : Commit) : pair_keys [ScanOp.nullTree c] = [] := rfl

theorem pair_keys_pair (p c : Commit) :
    pair_keys [ScanOp.pair p c] = [calculate_diff_hash (some p) c] := rfl

/-- The step equation of `walk` on a non-empty commit list. -/
theorem walk_cons (cfg : EngineCfg) (repo : Repo) (branch_name : String)
    (curr : Commit) (rest : List Commit) (prev : Option Commit) (st : EngSt) :
    walk cfg repo branch_name (curr :: rest) prev st =
      if cfg.since_commit = some curr.hexsha then (st, prev, true)
      else
        match prev with
        | none => walk cfg repo branch_name rest (some curr) st
        | some p =>
          let diff_hash := calculate_diff_hash (some p) curr
          if diff_hash ∈ st.already_searched then
            walk cfg repo branch_name rest (some curr) st
          else
            walk cfg repo branch_name rest (some curr)
              { findings := search_diff cfg (repo.diffC p curr) curr p branch_name
                  st.findings,
                already_searched := diff_hash :: st.already_searched,
                trace := st.trace ++ [ScanOp.pair p curr] } := rfl

theorem walk_nil (cfg : EngineCfg) (repo : Repo) (branch_name : String)
    (prev : Option Commit) (st : EngSt) :
    walk cfg repo branch_name [] prev st = (st, prev, false) := rfl

/-- The walk preserves the dedup invariant: the recorded pair digests are
distinct and all live in `already_searched`. -/
theorem walk_inv (cfg : EngineCfg) (repo : Repo) (branch_name : String) :
    ∀ (commits : List Commit) (prev : Option Commit) (st : EngSt),
      (pair_keys st.trace).Nodup →
      (∀ k ∈ pair_keys st.trace, k ∈ st.already_searched) →
      (pair_keys (walk cfg repo branch_name commits prev st).1.trace).Nodup ∧
        (∀ k ∈ pair_keys (walk cfg repo branch_name commits prev st).1.trace,
          k ∈ (walk cfg repo branch_name commits prev st).1.already_searched)
  | [], prev, st => fun h1 h2 => ⟨h1, h2⟩
  | curr :: rest, prev, st => by
    intro h1 h2
    rw [walk_cons]
    split_ifs with hsince
    · exact ⟨h1, h2⟩
    · match prev with
      | none => exact walk_inv cfg repo branch_name rest (some curr) st h1 h2
      | some p =>
        simp only
        split_ifs with hmem
        · exact walk_inv cfg repo branch_name rest (some curr) st h1 h2
        · apply walk_inv cfg repo branch_name rest (some curr)
          · simp only [pair_keys_append, pair_keys_pair]
            rw [List.nodup_append]
            refine ⟨h1, List.nodup_singleton _, ?_⟩
            intro k hk hk'
            rw [List.mem_singleton] at hk'
            subst hk'
            exact hmem (h2 _ hk)
          · intro k hk
            simp only [pair_keys_append, pair_keys_pair] at hk
            rcases List.mem_append.mp hk with hk | hk
            · exact List.mem_cons_of_mem _ (h2 _ hk)
            · rw [List.mem_singleton] at hk
              subst hk
              exact List.mem_cons_self _ _

theorem search_branch_inv (cfg : EngineCfg) (repo : Repo) (branch_name : String)
    (st : EngSt) (h1 : (pair_keys st.trace).Nodup)
    (h2 : ∀ k ∈ pair_keys st.trace, k ∈ st.already_searched) :
    (pair_keys (search_branch cfg repo branch_name st).trace).Nodup ∧
      (∀ k ∈ pair_keys (search_branch cfg repo branch_name st).trace,
        k ∈ (search_branch cfg repo branch_name st).already_searched) := by
  rw [search_branch]
  have hw := walk_inv cfg repo branch_name
    (match cfg.max_depth with
     | none => repo.commits branch_name
     | some d => (repo.commits branch_name).take d) none st h1 h2
  split
  · rename_i st' fst heq
    rw [heq] at hw
    exact hw
  · rename_i st' heq
    rw [heq] at hw
    exact hw
  · rename_i st' lastc heq
    rw [heq] at hw
    simp only [pair_keys_append, pair_keys_nullTree, List.append_nil]
    exact hw

theorem run_engine_inv (cfg : EngineCfg) (repo : Repo) :
    ∀ (branches : List String) (st : EngSt),
      (pair_keys st.trace).Nodup →
      (∀ k ∈ pair_keys st.trace, k ∈ st.already_searched) →
      (pair_keys (branches.foldl (fun s b => search_branch cfg repo b s) st).trace).Nodup ∧
        (∀ k ∈ pair_keys
            (branches.foldl (fun s b => search_branch cfg repo b s) st).trace,
          k ∈ (branches.foldl (fun s b => search_branch cfg repo b s) st).already_searched)
  | [], st => fun h1 h2 => ⟨h1, h2⟩
  | b :: rest, st => by
    intro h1 h2
    have hb := search_branch_inv cfg repo b st h1 h2
    exact run_engine_inv cfg repo rest (search_branch cfg repo b st) hb.1 hb.2

/-- Occurrences of `a` in `l` inject into occurrences of its key in
`l.filterMap f`. -/
theorem count_le_filterMap_count {α β : Type} [DecidableEq α] [DecidableEq β]
    (f : α → Option β) :
    ∀ (l : List α) (a : α) (k : β), f a = some k →
      l.count a ≤ (l.filterMap f).count k
  | [], _, _ => fun _ => le_refl 0
  | b :: t, a, k => by
    intro hfa
    have ih := count_le_filterMap_count f t a k hfa
    cases hfb : f b with
    | none =>
      have hba : ¬b = a := fun hba => by rw [hba, hfa] at hfb; cases hfb
      rw [List.filterMap_cons_none hfb]
      simp only [List.count_cons, beq_iff_eq, hba, if_false, add_zero]
      exact ih
    | some k' =>
      rw [List.filterMap_cons_some hfb]
      by_cases hba : b = a
      · have hkk : k' = k := by
          rw [hba, hfa] at hfb
          injection hfb with hkk
          exact hkk.symm
        subst hkk
        simp only [List.count_cons, beq_iff_eq, hba, if_pos, if_true]
        exact Nat.add_le_add_right ih 1
      · simp only [List.count_cons, beq_iff_eq, hba, if_false, add_zero]
        exact le_trans ih (Nat.le_add_right _ _)

/-! ## Claim theorems -/

/-- C6: the run extractor `_get_strings_of_set` does extract maximal
charset runs, but it discards runs of length exactly 20 (its test is
`count > threshold`, threshold 20), although its own docstring says
"threshold length or longer" and the claim says runs of length 20 or more
are retained: a 20-character run yields nothing, a 21-character run is
kept, and extraction is by maximal contiguous runs. -/
theorem run_length_threshold_bug :
    get_strings_of_set (String.mk (List.replicate 20 'a')) BASE64_CHARS = [] ∧
    get_strings_of_set (String.mk (List.replicate 21 'a')) BASE64_CHARS =
      [String.mk (List.replicate 21 'a')] ∧
    get_strings_of_set (String.mk (List.replicate 20 'f')) HEX_CHARS = [] ∧
    get_strings_of_set (String.mk (List.replicate 21 'f')) HEX_CHARS =
      [String.mk (List.replicate 21 'f')] ∧
    get_strings_of_set "zz.ABCDEFGHIJKLMNOPQRSTUV.zz" BASE64_CHARS =
      ["ABCDEFGHIJKLMNOPQRSTUV"] := by
  decide

/-- C10: `_compile_path_regexes` drops blank and `#` lines, trims leading
whitespace and deduplicates — but it strips the newline with `l[:-1]`,
which on a final line lacking a trailing newline deletes the last character
of the pattern itself: the one-line file `"x"` compiles to zero patterns,
and `"ab\nab"` (one distinct line) compiles to the two patterns
`"ab"` and `"a"`. -/
theorem compile_path_patterns_bug :
    compile_path_patterns none = none ∧
    compile_path_patterns (some "x\n") = some ["x"] ∧
    compile_path_patterns (some "  x\n# c\n\nx\n") = some ["x"] ∧
    compile_path_patterns (some "x") = some [] ∧
    compile_path_patterns (some "ab\nab") = some ["ab", "a"] := by
  decide

/-- C4: `find_secrets(self, branch=None, print_json=False)` does not accept
the `skip_entropy` / `skip_regex` keyword arguments that every entry point
passes, so the call raises `TypeError` before any branch is walked; `local`
and `url` propagate it, `github`'s bare `except` swallows it, and no
findings are ever produced. -/
theorem entry_points_type_error (run : Unit → List Finding)
    (repos : List (Unit → List Finding)) :
    python_kwcall_ok find_secrets_param_names entry_point_kwarg_names = false ∧
    local_entry run = Except.error "TypeError" ∧
    url_entry run = Except.error "TypeError" ∧
    github_entry (run :: repos) = Except.ok [] :=
  ⟨rfl, rfl, rfl, rfl⟩

/-- C7: `_path_included` returns false when the inclusion set is non-empty
and no pattern matches (whatever the exclusions); false when the exclusion
set is non-empty and some pattern matches; true otherwise, in particular
when both sets are absent. -/
theorem path_filter_spec (inclusions exclusions : Option (List (String → Bool)))
    (path : String) :
    (path_included none none path = true) ∧
    (py_truthy inclusions = true →
      (∀ p ∈ inclusions.getD [], p path = false) →
      path_included inclusions exclusions path = false) ∧
    (py_truthy exclusions = true →
      (∃ p ∈ exclusions.getD [], p path = true) →
      path_included inclusions exclusions path = false) ∧
    ((py_truthy inclusions = false ∨ ∃ p ∈ inclusions.getD [], p path = true) →
      (py_truthy exclusions = false ∨ ∀ p ∈ exclusions.getD [], p path = false) →
      path_included inclusions exclusions path = true) := by
  refine ⟨rfl, ?_, ?_, ?_⟩
  · intro htr hall
    have hany : (inclusions.getD []).any (fun p => p path) = false :=
      List.any_eq_false.mpr (fun p hp => by rw [hall p hp]; exact Bool.false_ne_true)
    rw [path_included, if_pos (by rw [htr, hany]; rfl)]
  · intro htr hex
    have hany : (exclusions.getD []).any (fun p => p path) = true :=
      List.any_eq_true.mpr hex
    rw [path_included]
    split_ifs with h1 h2
    · rfl
    · rfl
    · exfalso
      exact h2 (by rw [htr, hany]; rfl)
  · intro hincl hexcl
    have h1 : (py_truthy inclusions &&
        !((inclusions.getD []).any (fun p => p path))) = false := by
      rcases hincl with h | h
      · rw [h]; rfl
      · rw [List.any_eq_true.mpr h]
        simp
    have h2 : (py_truthy exclusions &&
        (exclusions.getD []).any (fun p => p path)) = false := by
      rcases hexcl with h | h
      · rw [h]; rfl
      · rw [List.any_eq_false.mpr (fun p hp => by rw [h p hp]; exact Bool.false_ne_true)]
        simp
    rw [path_included, h1, h2]
    rfl

/-- C7 witness: a non-empty inclusion set none of whose patterns matches
rejects the path, and empty filters accept it. -/
theorem path_filter_spec_witness :
    path_included (some [fun s => py_startswith s "src/"]) none "lib/a.py" = false ∧
    path_included none none "lib/a.py" = true := by
  have h := path_filter_spec (some [fun s => py_startswith s "src/"]) none "lib/a.py"
  refine ⟨h.2.1 (by decide) ?_, h.1⟩
  intro p hp
  simp only [Option.getD_some, List.mem_singleton] at hp
  rw [hp]
  decide

/-- C8: for a non-`.pyc` diff entry, `_search_diff` skips the entry (no
detectors, zero findings) exactly when the decoded text starts with the
`"Binary files"` marker AND the path fails the inclusion/exclusion filter;
whenever it is not skipped — binary-marked but passing the filter, or not
binary-marked at all — the detectors run on the decoded text itself. -/
theorem diff_extractor_binary_skip_spec (cfg : EngineCfg) (blob : Blob)
    (curr_commit prev_commit : Commit) (branch_name : String)
    (hpyc : py_endswith (blob_path blob) ".pyc" = false) :
    ((scan_blob cfg blob curr_commit prev_commit branch_name).1 = none ↔
      (py_startswith blob.diff_text "Binary files" = true ∧
        path_included cfg.path_inclusions cfg.path_exclusions (blob_path blob) =
          false)) ∧
    ((scan_blob cfg blob curr_commit prev_commit branch_name).1 = none →
      (scan_blob cfg blob curr_commit prev_commit branch_name).2 = []) ∧
    (∀ t, (scan_blob cfg blob curr_commit prev_commit branch_name).1 = some t →
      t = blob.diff_text) := by
  rw [scan_blob]
  rw [hpyc]
  simp only [Bool.false_eq_true, if_false]
  split_ifs with hb
  · rw [Bool.and_eq_true, Bool.not_eq_true'] at hb
    exact ⟨⟨fun _ => hb, fun _ => rfl⟩, fun _ => rfl, fun t ht => by cases ht⟩
  · constructor
    · constructor
      · intro h
        cases h
      · rintro ⟨hs, hf⟩
        exfalso
        exact hb (by rw [hs, hf]; rfl)
    · exact ⟨(fun h => by cases h), fun t ht => by cases ht; rfl⟩

/-- C8 witness: a binary-marked blob whose path matches an exclusion
pattern is skipped with zero findings. -/
theorem diff_extractor_binary_skip_spec_witness :
    (scan_blob cfg_exclude_bin blob_binary commit_old commit_old "b").1 = none ∧
    (scan_blob cfg_exclude_bin blob_binary commit_old commit_old "b").2 = [] := by
  have h := diff_extractor_binary_skip_spec cfg_exclude_bin blob_binary commit_old
    commit_old "b" (by decide)
  have hnone := h.1.mpr ⟨by decide, by decide⟩
  exact ⟨hnone, h.2.1 hnone⟩

/-- C5: `_find_entropy` appends a finding iff some run is flagged, its
`found_strings` are exactly the runs flagged per charset (a run extracted
under both charsets is evaluated once per charset, independently); a run is
flagged under the base64 (resp. hex) charset iff its Shannon entropy over
that symbol universe exceeds 4.5 (resp. 3); and a single-repeated-character
run has entropy 0 and is never flagged. -/
theorem entropy_detector_spec (text commit_time branch_name : String)
    (prev_commit : Commit) (blob : Blob) (commitHash : String) :
    (find_entropy text commit_time branch_name prev_commit blob commitHash = none ↔
      entropy_found_strings text = []) ∧
    (∀ f, find_entropy text commit_time branch_name prev_commit blob commitHash =
        some f →
      f.found_strings = entropy_found_strings text ∧ f.reason = "High Entropy") ∧
    (∀ w : String, word_found w =
      (get_strings_of_set w BASE64_CHARS).filter flagged_b64 ++
        (get_strings_of_set w HEX_CHARS).filter flagged_hex) ∧
    (∀ s : String, flagged_b64 s = true ↔
      (4.5 : ℝ) < shannon_entropy s BASE64_CHARS) ∧
    (∀ s : String, flagged_hex s = true ↔
      (3 : ℝ) < shannon_entropy s HEX_CHARS) ∧
    (∀ (c : Char) (n : ℕ),
      shannon_entropy (String.mk (List.replicate n c)) BASE64_CHARS = 0 ∧
      shannon_entropy (String.mk (List.replicate n c)) HEX_CHARS = 0 ∧
      flagged_b64 (String.mk (List.replicate n c)) = false ∧
      flagged_hex (String.mk (List.replicate n c)) = false) := by
  refine ⟨find_entropy_none_iff text commit_time branch_name prev_commit blob
    commitHash, ?_, fun w => rfl, ?_, ?_, ?_⟩
  · intro f hf
    have h := find_entropy_some_fields text commit_time branch_name prev_commit blob
      commitHash f hf
    exact ⟨h.1, h.2.1⟩
  · intro s
    have h := entropy_gt_iff s BASE64_CHARS 9 2 (by norm_num) (by norm_num)
    rw [flagged_b64, h]
    norm_num
  · intro s
    have h := entropy_gt_iff s HEX_CHARS 3 1 (by norm_num) (by norm_num)
    rw [flagged_hex, h]
    norm_num
  · intro c n
    have hrep := single_repeat_not_flagged c n
    exact ⟨single_repeat_entropy_zero c n BASE64_CHARS,
      single_repeat_entropy_zero c n HEX_CHARS, hrep.1, hrep.2⟩

/-- C9 counterexample: rule `r2`'s global match on the diff text `"abc"` is
non-empty, yet `r2` contributes no finding — rule `r1`'s highlighting has
already rewritten the text `_regex_check` runs `r2` on. -/
theorem regex_detector_counterexample :
    lit_findall "abc" "abc" = ["abc"] ∧
    (regex_check rules_ab_abc "abc" "ct" "bn" commit_old blob_secret "ch").map
      (fun f => f.reason) = ["Regex Match: r1"] := by
  decide

/-- C9 amended: `_regex_check` evaluates rules in insertion order; each
rule contributes at most one finding (the contributing rule names are a
subsequence of the rule names), with reason `"Regex Match: <name>"` and all
its matched substrings — but a rule's global match runs on the diff text as
already annotated by the preceding rules' highlighting, not on the original
diff text; the concrete `aws_key` example behaves as the claim states. -/
theorem regex_detector_amended (rules : List (String × (String → List String)))
    (text commit_time branch_name : String) (prev_commit : Commit) (blob : Blob)
    (commitHash : String) :
    (regex_check rules text commit_time branch_name prev_commit blob commitHash =
      (regex_scan rules text).map
        (fun e =>
          { path := blob_path blob, reason := "Regex Match: " ++ e.1,
            found_strings := e.2.1, commit_hash := prev_commit.hexsha,
            branch := branch_name, date := commit_time,
            commit_message := prev_commit.message, diff := e.2.2 })) ∧
    List.Sublist ((regex_scan rules text).map (fun e => e.1))
      (rules.map (fun kr => kr.1)) ∧
    (∀ e ∈ regex_scan rules text, e.2.1 ≠ []) ∧
    (regex_check [("aws_key", aws_findall)] "key AKIA1234567890ABCDEF x" "ct" "bn"
      commit_old blob_secret "ch").map (fun f => (f.reason, f.found_strings)) =
      [("Regex Match: aws_key", ["AKIA1234567890ABCDEF"])] :=
  ⟨regex_check_eq_scan rules text commit_time branch_name prev_commit blob commitHash,
   regex_scan_names_sublist rules text,
   regex_scan_matches_ne_nil rules text,
   by decide⟩

/-- C1 counterexample: on a two-commit branch the one pair scan has
`prev_commit = commit_new` (newer) and `curr_commit = commit_old` (older),
and the finding records the NEWER commit's hash, date and message — not the
older commit's, as the claim states. -/
theorem finding_attribution_counterexample :
    (search_branch cfg_secret repo_two_commits "main" ⟨[], [], []⟩).trace =
      [ScanOp.pair commit_new commit_old, ScanOp.nullTree commit_old] ∧
    (search_branch cfg_secret repo_two_commits "main" ⟨[], [], []⟩).findings.map
      (fun f => (f.commit_hash, f.date, f.commit_message)) =
      [("newhash", "200", "rotate credentials")] ∧
    commit_new.hexsha = "newhash" ∧ commit_old.hexsha = "oldhash" ∧
    ("newhash" : String) ≠ "oldhash" := by
  decide

/-- C1 amended: every finding `_search_diff` creates records the hash,
formatted date and message of `prev_commit` — during a pair scan the
chronologically newer commit of the pair, not the older `curr_commit`
(in the final empty-tree scan the two coincide). -/
theorem finding_attribution_amended (cfg : EngineCfg) (diff : List Blob)
    (curr_commit prev_commit : Commit) (branch_name : String) (f : Finding)
    (hf : f ∈ search_diff cfg diff curr_commit prev_commit branch_name []) :
    f.commit_hash = prev_commit.hexsha ∧
    f.date = cfg.fmtTime prev_commit.committed_date ∧
    f.commit_message = prev_commit.message := by
  rw [search_diff_eq_append] at hf
  rw [List.nil_append] at hf
  rcases List.mem_flatMap.mp hf with ⟨blob, _, hfb⟩
  exact scan_blob_fields cfg blob curr_commit prev_commit branch_name f hfb

/-- C1 witness: the concrete finding of the `commit_new`/`commit_old` pair
scan carries `commit_new`'s (the `prev_commit`'s) hash, date and message. -/
theorem finding_attribution_amended_witness :
    witness_finding.commit_hash = commit_new.hexsha ∧
    witness_finding.date = cfg_secret.fmtTime commit_new.committed_date ∧
    witness_finding.commit_message = commit_new.message :=
  finding_attribution_amended cfg_secret [blob_secret] commit_old commit_new "main"
    witness_finding (by decide)

/-- C2 counterexample: two branches pointing at the same single root commit
(fully shared ancestry).  The root's empty-tree diff is not recorded in
`already_searched`, so it is scanned once per branch and its findings are
duplicated — the shared ancestry is scanned twice, not once. -/
theorem dedup_counterexample :
    repo_shared_root.commits "b1" = repo_shared_root.commits "b2" ∧
    (run_engine cfg_secret repo_shared_root ["b1", "b2"]).trace =
      [ScanOp.nullTree commit_root, ScanOp.nullTree commit_root] ∧
    (run_engine cfg_secret repo_shared_root ["b1", "b2"]).findings.map
      (fun f => (f.reason, f.commit_hash)) =
      [("Regex Match: tok", "roothash"), ("Regex Match: tok", "roothash")] := by
  decide

/-- C2 amended: across one engine run — all branches sharing one
`already_searched` set — the same (previous, current) commit pair is diffed
and scanned at most once: each pair scan records its diff hash first, and
the recorded hashes of the pair scans in the run's trace are pairwise
distinct, so a second walk reaching the same pair performs no scan of it
(hence contributes no findings from it).  Only the final empty-tree diff of
a branch's oldest commit escapes this dedup (see the counterexample). -/
theorem dedup_amended (cfg : EngineCfg) (repo : Repo) (branches : List String) :
    (pair_keys (run_engine cfg repo branches).trace).Nodup ∧
    (∀ k ∈ pair_keys (run_engine cfg repo branches).trace,
      k ∈ (run_engine cfg repo branches).already_searched) ∧
    (∀ p c : Commit,
      (run_engine cfg repo branches).trace.count (ScanOp.pair p c) ≤ 1) := by
  have h := run_engine_inv cfg repo branches ⟨[], [], []⟩ List.nodup_nil
    (fun k hk => absurd hk (List.not_mem_nil k))
  refine ⟨h.1, h.2, ?_⟩
  intro p c
  exact le_trans
    (count_le_filterMap_count pair_key (run_engine cfg repo branches).trace
      (ScanOp.pair p c) (calculate_diff_hash (some p) c) rfl)
    (List.nodup_iff_count_le_one.mp h.1 _)

/-- C3: on a branch `[C3(newest), C2, C1(oldest)]` with no depth bound and
no stop marker the walk performs exactly the three scans
(C2 vs C3), (C1 vs C2), (C1 vs empty tree), in that order; with
`since_commit = C2` the walk stops on reaching C2 before any diffing, so
no scan at all happens and no finding is produced. -/
theorem walk_scenario_spec (cfg : EngineCfg) (repo : Repo) (b : String)
    (c1 c2 c3 : Commit)
    (hc : repo.commits b = [c3, c2, c1])
    (hsince : cfg.since_commit = none)
    (hdepth : cfg.max_depth = none)
    (hlen : c3.hexsha.length = c2.hexsha.length)
    (hne : c3.hexsha ≠ c2.hexsha) :
    (search_branch cfg repo b ⟨[], [], []⟩).trace =
      [ScanOp.pair c3 c2, ScanOp.pair c2 c1, ScanOp.nullTree c1] ∧
    (search_branch { cfg with since_commit := some c2.hexsha } repo b
      ⟨[], [], []⟩).trace = [] ∧
    (search_branch { cfg with since_commit := some c2.hexsha } repo b
      ⟨[], [], []⟩).findings = [] := by
  have hhash : calculate_diff_hash (some c2) c1 ≠ calculate_diff_hash (some c3) c2 := by
    intro heq
    apply hne
    have hdata : c2.hexsha.data ++ c1.hexsha.data =
        c3.hexsha.data ++ c2.hexsha.data := congrArg String.data heq
    have hlen' : c2.hexsha.data.length = c3.hexsha.data.length := hlen.symm
    exact (String.ext (List.append_inj_left hdata hlen')).symm
  have hne' : c2.hexsha ≠ c3.hexsha := fun h => hne h.symm
  refine ⟨?_, ?_, ?_⟩
  · rw [search_branch, hdepth, hc]
    simp only [walk_cons, walk_nil, hsince, Option.some.injEq, reduceCtorEq,
      if_false, List.not_mem_nil, List.mem_singleton, List.nil_append, hhash,
      List.append_nil]
    rfl
  · rw [search_branch, hdepth, hc]
    simp only [walk_cons, hsince, Option.some.injEq, hne', if_false, if_true]
  · rw [search_branch, hdepth, hc]
    simp only [walk_cons, hsince, Option.some.injEq, hne', if_false, if_true]

/-- C3 witness: the concrete three-commit branch. -/
theorem walk_scenario_spec_witness :
    (search_branch cfg_plain repo_three_commits "main" ⟨[], [], []⟩).trace =
      [ScanOp.pair commit_c3 commit_c2, ScanOp.pair commit_c2 commit_c1,
        ScanOp.nullTree commit_c1] ∧
    (search_branch { cfg_plain with since_commit := some commit_c2.hexsha }
      repo_three_commits "main" ⟨[], [], []⟩).trace = [] ∧
    (search_branch { cfg_plain with since_commit := some commit_c2.hexsha }
      repo_three_commits "main" ⟨[], [], []⟩).findings = [] :=
  walk_scenario_spec cfg_plain repo_three_commits "main" commit_c1 commit_c2
    commit_c3 (by decide) rfl rfl (by decide) (by decide)

end TrufflePy
